import Mathlib

/-!
Shallow embedding of the `roll` dice-rolling utility (Go) in Lean 4.

The repository has two grammars and two evaluators:

* `roll.go` (package `roll`): regex-based single-group notation
  (`NdM[dl|dh|kh|kl][N][+X or -X]`), `Dice`, `Result`, `Roll`,
  `applyRollModifier`, `RollString`, `RollAdvantage`, `RollDisadvantage`.
* `pkg/rolls/rolls.go` plus `norm.go` (package `main`): chained signed
  terms (`3d6+2d8-5`), `split` / `getNextDieStr` / `toRollInfo` /
  `parseOperators` / `normGen`, and the `age` generator.

Strings are embedded as `List Char`; Go `int` as `Int` (overflow is
irrelevant for the properties below); fallible functions return `Option`.
The global `math/rand` source is embedded as a pure stream `g : Nat → Nat`
together with a position counter: `rand.Intn n` at position `pos` is
`g pos % n`, and every function that may draw threads the position
explicitly, so "no draw happened" is expressed as "the position is
unchanged".
-/

namespace Roll

/-- Roll modifiers, from the `Modifier` constant block of `roll.go`. -/
inductive Modifier where
  | ModNone
  | ModAdvantage
  | ModDisadvantage
  | ModDropLowest
  | ModDropHighest
  | ModKeepHighest
  | ModKeepLowest
deriving DecidableEq, Repr

/-- The parsed dice expression, `Dice` of `roll.go`.  `DropKeep` is a
non-negative count at every call site (the regex captures a digit string,
and the convenience constructors use 1), so it is embedded as `Nat`. -/
structure Dice where
  NumDice : Int
  Sides : Int
  Modifier : Int
  RollMod : Roll.Modifier
  DropKeep : Nat
deriving DecidableEq, Repr

/-- The outcome record, `Result` of `roll.go`. -/
structure Result where
  Expression : List Char
  Rolls : List Int
  Dropped : List Int
  Kept : List Int
  Modifier : Int
  Total : Int
  Sides : Int
  NumDice : Int
deriving DecidableEq, Repr

/-- `applyRollModifier` of `roll.go`: pass rolls through when no rule is
active, otherwise sort an ascending copy (`sort.Ints`) and slice it. -/
def applyRollModifier (rolls : List Int) (mod : Modifier) (count : Nat) :
    List Int × List Int :=
  if mod = Modifier.ModNone ∨ count = 0 ∨ count ≥ rolls.length then
    (rolls, [])
  else
    let sorted := List.insertionSort (· ≤ ·) rolls
    match mod with
    | .ModDropLowest => (sorted.drop count, sorted.take count)
    | .ModDropHighest =>
        (sorted.take (sorted.length - count), sorted.drop (sorted.length - count))
    | .ModKeepHighest =>
        (sorted.drop (sorted.length - count), sorted.take (sorted.length - count))
    | .ModKeepLowest => (sorted.take count, sorted.drop count)
    | _ => (rolls, [])

/-- Go `strconv.Atoi`: an optional single sign followed by at least one
decimal digit; anything else is an error (`none`). -/
def atoi (s : List Char) : Option Int :=
  match s with
  | [] => none
  | '+' :: rest =>
      if rest ≠ [] ∧ rest.all Char.isDigit then
        some (rest.foldl (fun acc c => acc * 10 + (c.toNat - 48)) 0 : Nat)
      else none
  | '-' :: rest =>
      if rest ≠ [] ∧ rest.all Char.isDigit then
        some (-((rest.foldl (fun acc c => acc * 10 + (c.toNat - 48)) 0 : Nat) : Int))
      else none
  | _ =>
      if s.all Char.isDigit then
        some (s.foldl (fun acc c => acc * 10 + (c.toNat - 48)) 0 : Nat)
      else none

/-- Longest digit prefix and the rest, the `\d+` building block of
`diceRegex`. -/
def takeDigits (s : List Char) : List Char × List Char :=
  (s.takeWhile Char.isDigit, s.dropWhile Char.isDigit)

/-- The `(dl|dh|kh|kl)?` alternative of `diceRegex` (on the lower-cased
input): the matched suffix (empty when absent) and the rest. -/
def matchSuffix (s : List Char) : List Char × List Char :=
  match s with
  | 'd' :: 'l' :: rest => (['d', 'l'], rest)
  | 'd' :: 'h' :: rest => (['d', 'h'], rest)
  | 'k' :: 'h' :: rest => (['k', 'h'], rest)
  | 'k' :: 'l' :: rest => (['k', 'l'], rest)
  | _ => ([], s)

/-- The `([+-]\d+)?` group of `diceRegex`: matched text (sign included,
empty when the group is absent) and the rest. -/
def matchSignedNum (s : List Char) : List Char × List Char :=
  match s with
  | c :: rest =>
      if c = '+' ∨ c = '-' then
        let (ds, rest') := takeDigits rest
        if ds = [] then ([], s) else (c :: ds, rest')
      else ([], s)
  | [] => ([], s)

/-- `diceRegex.FindStringSubmatch` on the trimmed, lower-cased input:
`(?i)^(\d+)?d(\d+)(dl|dh|kh|kl)?(\d+)?([+-]\d+)?$` as a deterministic
left-to-right matcher (each `\d+` is maximal, which agrees with the
regex's leftmost-greedy submatch semantics here since no later group can
consume a digit given up by an earlier one).  Returns the five capture
groups, an empty list standing for an unmatched group. -/
def diceRegexMatch (s : List Char) :
    Option (List Char × List Char × List Char × List Char × List Char) :=
  let (g1, s1) := takeDigits s
  match s1 with
  | 'd' :: s2 =>
      let (g2, s3) := takeDigits s2
      if g2 = [] then none
      else
        let (g3, s4) := matchSuffix s3
        let (g4, s5) := takeDigits s4
        let (g5, s6) := matchSignedNum s5
        if s6 = [] then some (g1, g2, g3, g4, g5) else none
  | _ => none

/-- `Parse` of `roll.go`: trim, lower-case, match `diceRegex`, then read
the groups (dice count defaults to 1, drop/keep count defaults to 1 when a
suffix is present and to 0 otherwise). -/
def Parse (expr : List Char) : Option Dice := do
  let e := ((expr.dropWhile Char.isWhitespace).reverse.dropWhile
      Char.isWhitespace).reverse.map Char.toLower
  let (g1, g2, g3, g4, g5) ← diceRegexMatch e
  let numDice ← if g1 = [] then pure 1 else atoi g1
  let sides ← atoi g2
  let (rollMod, dropKeep) ←
    if g3 = [] then pure (Modifier.ModNone, (0 : Nat))
    else do
      let m := if g3 = ['d', 'l'] then Modifier.ModDropLowest
        else if g3 = ['d', 'h'] then Modifier.ModDropHighest
        else if g3 = ['k', 'h'] then Modifier.ModKeepHighest
        else Modifier.ModKeepLowest
      let dk ← if g4 = [] then pure 1 else (atoi g4).map Int.toNat
      pure (m, dk)
  let modifier ← if g5 = [] then pure 0 else atoi g5
  pure { NumDice := numDice, Sides := sides, Modifier := modifier,
         RollMod := rollMod, DropKeep := dropKeep }

/-- One die draw, `rollDie` (`rand.Intn(sides) + 1`) at stream position
`pos` of the random stream `g`. -/
def rollDie (g : Nat → Nat) (pos : Nat) (sides : Int) : Int :=
  ((g pos % sides.toNat : Nat) : Int) + 1

/-- `(*Dice).Roll` of `roll.go`: validate, draw `NumDice` dice in order,
apply the roll modifier, and total the kept dice plus the flat modifier.
The returned `Nat` is the new random-stream position. -/
def Roll (d : Dice) (g : Nat → Nat) (pos : Nat) : Option Result × Nat :=
  if d.NumDice < 1 then (none, pos)
  else if d.Sides < 1 then (none, pos)
  else
    let n := d.NumDice.toNat
    let rolls := (List.range n).map fun i => rollDie g (pos + i) d.Sides
    let kd := applyRollModifier rolls d.RollMod d.DropKeep
    (some { Expression := [], Rolls := rolls, Dropped := kd.2, Kept := kd.1,
            Modifier := d.Modifier, Total := kd.1.sum + d.Modifier,
            Sides := d.Sides, NumDice := d.NumDice }, pos + n)

/-- `RollString` of `roll.go`: parse then roll; a parse error is returned
before any draw. -/
def RollString (expr : List Char) (g : Nat → Nat) (pos : Nat) :
    Option Result × Nat :=
  match Parse expr with
  | none => (none, pos)
  | some d =>
      match Roll d g pos with
      | (none, p) => (none, p)
      | (some r, p) => (some { r with Expression := expr }, p)

/-- `RollAdvantage` of `roll.go`: a 2d20 keep-highest-1 `Dice` value built
directly (no parser involved), rolled with the flat modifier. -/
def RollAdvantage (modifier : Int) (g : Nat → Nat) (pos : Nat) :
    Option Result × Nat :=
  Roll { NumDice := 2, Sides := 20, Modifier := modifier,
         RollMod := .ModKeepHighest, DropKeep := 1 } g pos

/-- `RollDisadvantage` of `roll.go`: 2d20 keep-lowest-1, built directly. -/
def RollDisadvantage (modifier : Int) (g : Nat → Nat) (pos : Nat) :
    Option Result × Nat :=
  Roll { NumDice := 2, Sides := 20, Modifier := modifier,
         RollMod := .ModKeepLowest, DropKeep := 1 } g pos

/-- `RollAbilityScore` of `roll.go`: 4d6 drop-lowest-1, no modifier. -/
def RollAbilityScore (g : Nat → Nat) (pos : Nat) : Option Result × Nat :=
  Roll { NumDice := 4, Sides := 6, Modifier := 0,
         RollMod := .ModDropLowest, DropKeep := 1 } g pos

end Roll

namespace Rolls

/-- Term operation, the `AddOperation` / `SubtractOperation` constants used
by `toRollInfo` and `normGen`. -/
inductive Operation where
  | AddOperation
  | SubtractOperation
deriving DecidableEq, Repr

/-- One parsed term, the `RollInfo` struct consumed by `normGen`: either a
dice term (`Number`, `Sides`) or a flat term (`Flat`), with a signed
operation.  Unset Go fields keep their zero value. -/
structure RollInfo where
  Operation : Rolls.Operation
  Number : Int := 0
  Sides : Int := 0
  Flat : Int := 0
deriving DecidableEq, Repr

/-- Whether a byte is `'+'` or `'-'`, the boundary test of
`getNextDieStr`. -/
def isSign (c : Char) : Bool := c = '+' || c = '-'

/-- Index of the first `'+'` or `'-'` in the list, if any (the scan loop of
`getNextDieStr`). -/
def findSign : List Char → Option Nat
  | [] => none
  | c :: rest => if isSign c then some 0 else (findSign rest).map (· + 1)

/-- `getNextDieStr` of `rolls.go`: skip a leading sign, then cut at the
first subsequent `'+'` or `'-'`; returns the term and the remainder
(which keeps its leading sign). -/
def getNextDieStr (s : List Char) : List Char × List Char :=
  match s with
  | [] => ([], [])
  | c :: rest =>
      if isSign c then
        match findSign rest with
        | some i => (s.take (i + 1), s.drop (i + 1))
        | none => (s, [])
      else
        match findSign s with
        | some i => (s.take i, s.drop i)
        | none => (s, [])

/-- `split` of `rolls.go`: repeatedly peel off the next term with
`getNextDieStr` until the remainder is empty.  The loop terminates because
a non-empty remainder is always a strict suffix of the input: the cut
index is at least 1 (a sign at position 0 is skipped, so a boundary sign
sits at a positive index). -/
def split (s : List Char) : List (List Char) :=
  let p := getNextDieStr s
  if h : p.2 = [] then [p.1]
  else p.1 :: split p.2
termination_by s.length
decreasing_by
  replace h : (getNextDieStr s).2 ≠ [] := h
  show (getNextDieStr s).2.length < s.length
  have findSign_lt : ∀ (l : List Char) (i : Nat), findSign l = some i → i < l.length := by
    intro l
    induction l with
    | nil => intro i hi; simp [findSign] at hi
    | cons x xs ih =>
        intro i hi
        by_cases hx : isSign x
        · simp [findSign, hx] at hi
          simp [← hi]
        · simp [findSign, hx] at hi
          obtain ⟨j, hj, rfl⟩ := hi
          have := ih j hj
          simp
          omega
  rcases s with _ | ⟨c, rest⟩
  · simp [getNextDieStr] at h
  · by_cases hc : isSign c
    · rcases hfs : findSign rest with _ | i
      · simp [getNextDieStr, hc, hfs] at h
      · have hi := findSign_lt rest i hfs
        simp [getNextDieStr, hc, hfs]
        omega
    · rcases hfs : findSign (c :: rest) with _ | i
      · simp [getNextDieStr, hc, hfs] at h
      · have hfs' := hfs
        simp [findSign, hc] at hfs'
        obtain ⟨j, hj, hji⟩ := hfs'
        have hi := findSign_lt rest j hj
        simp [getNextDieStr, hc, hfs]
        omega


/-- `toRollInfo` of `rolls.go`: read the optional leading sign as the
operation, split the rest on `'d'`; one part is a flat term, two parts are
a dice term validated to `Number ≥ 1` and `Sides ≥ 1`; anything else is an
error. -/
def toRollInfo (str : List Char) : Option RollInfo :=
  if str = [] then none
  else
    let opOffset : Rolls.Operation × Nat :=
      match str with
      | '+' :: _ => (.AddOperation, 1)
      | '-' :: _ => (.SubtractOperation, 1)
      | _ => (.AddOperation, 0)
    if opOffset.2 ≥ str.length then none
    else
      match (str.drop opOffset.2).splitOn 'd' with
      | [p0] => (Roll.atoi p0).map fun f => { Operation := opOffset.1, Flat := f }
      | [p0, p1] =>
          match Roll.atoi p0, Roll.atoi p1 with
          | some n, some sd =>
              if n < 0 then none
              else if n = 0 then none
              else if sd ≤ 0 then none
              else some { Operation := opOffset.1, Number := n, Sides := sd }
          | _, _ => none
      | _ => none

/-- `parseOperators` of `rolls.go`: join the CLI arguments into one string,
split it into signed terms, and resolve each term; the first bad term
aborts the whole parse. -/
def parseOperators (args : List (List Char)) : Option (List RollInfo) :=
  (split args.flatten).mapM toRollInfo

/-- `normGen` of `norm.go`: evaluate the parsed terms in order against the
random stream, adding or subtracting each term's value into a running
total.  A term with a non-zero `Flat` contributes the flat value with no
draw; otherwise `Number` dice of `Sides` sides are drawn in order. -/
def normGen (infos : List RollInfo) (g : Nat → Nat) (pos : Nat) : Int × Nat :=
  infos.foldl
    (fun acc info =>
      let sums : Int × Nat :=
        if info.Flat ≠ 0 then (info.Flat, acc.2)
        else
          let n := info.Number.toNat
          (((List.range n).map fun i => Roll.rollDie g (acc.2 + i) info.Sides).sum,
            acc.2 + n)
      (if info.Operation = .SubtractOperation then acc.1 - sums.1
        else acc.1 + sums.1, sums.2))
    (0, pos)

/-- The non-`age` path of `Roll` in `rolls.go`: `parseOperators`, then
`normGen`.  In the Go source a parse error exits via `log.Fatalln` before
any draw; here it surfaces as `none` with the stream position unchanged. -/
def rollNorm (args : List (List Char)) (g : Nat → Nat) (pos : Nat) :
    Option Int × Nat :=
  match parseOperators args with
  | none => (none, pos)
  | some infos =>
      let tp := normGen infos g pos
      (some tp.1, tp.2)

/-- `parseModifier` of the age generator: empty means 0; a single leading
sign (only recognized when at least two characters are present) sets the
negative flag; the rest goes through `strconv.ParseInt`. -/
def parseModifier (modifier : List Char) : Option (Int × Bool) :=
  if modifier = [] then some (0, false)
  else
    let startNeg : Nat × Bool :=
      match modifier with
      | c :: _ :: _ =>
          if c = '+' then (1, false)
          else if c = '-' then (1, true)
          else (0, false)
      | _ => (0, false)
    if startNeg.1 ≥ modifier.length then none
    else (Roll.atoi (modifier.drop startNeg.1)).map fun v => (v, startNeg.2)

/-- What the age generator reports: the three dice, the stunt-point flag
(with the third die as the stunt value), the drama flag, and the total. -/
structure AgeResult where
  dice0 : Int
  dice1 : Int
  dice2 : Int
  stuntPoints : Bool
  stuntValue : Int
  drama : Bool
  total : Int
deriving DecidableEq, Repr

/-- `ageGen` of the age generator: require at least one argument, parse the
optional modifier argument (default `"0"`) before any draw, draw three
six-sided dice in order, flag stunt points when any two dice match
(reporting the third die as the count) and drama when the third die is 6,
and apply the signed modifier to the dice sum. -/
def ageGen (args : List (List Char)) (g : Nat → Nat) (pos : Nat) :
    Option AgeResult × Nat :=
  match args with
  | [] => (none, pos)
  | _ :: rest =>
      let modifier := match rest with
        | [] => ['0']
        | m :: _ => m
      match parseModifier modifier with
      | none => (none, pos)
      | some (modVal, negative) =>
          let d0 := Roll.rollDie g pos 6
          let d1 := Roll.rollDie g (pos + 1) 6
          let d2 := Roll.rollDie g (pos + 2) 6
          let diceSum := d0 + d1 + d2
          (some { dice0 := d0, dice1 := d1, dice2 := d2,
                  stuntPoints := d0 == d1 || d0 == d2 || d1 == d2,
                  stuntValue := d2, drama := d2 == 6,
                  total := if negative then diceSum - modVal
                    else diceSum + modVal }, pos + 3)

end Rolls

theorem sorted_take_le_drop {s : List Int} (hs : List.Sorted (· ≤ ·) s)
    (n : Nat) : ∀ x ∈ s.take n, ∀ y ∈ s.drop n, x ≤ y := by
  have h : List.Pairwise (· ≤ ·) (s.take n ++ s.drop n) := by
    rw [List.take_append_drop]; exact hs
  exact fun x hx y hy => (List.pairwise_append.mp h).2.2 x hx y hy

theorem insertionSort_perm_int (rolls : List Int) :
    (List.insertionSort (· ≤ ·) rolls).Perm rolls :=
  List.perm_insertionSort _ rolls

theorem insertionSort_length_int (rolls : List Int) :
    (List.insertionSort (· ≤ ·) rolls).length = rolls.length :=
  (insertionSort_perm_int rolls).length_eq

theorem applyRollModifier_dropLowest_eq (rolls : List Int) (n : Nat)
    (h1 : 0 < n) (h2 : n < rolls.length) :
    Roll.applyRollModifier rolls .ModDropLowest n =
      ((List.insertionSort (· ≤ ·) rolls).drop n,
        (List.insertionSort (· ≤ ·) rolls).take n) := by
  unfold Roll.applyRollModifier
  rw [if_neg (by simp; omega)]

theorem applyRollModifier_dropHighest_eq (rolls : List Int) (n : Nat)
    (h1 : 0 < n) (h2 : n < rolls.length) :
    Roll.applyRollModifier rolls .ModDropHighest n =
      ((List.insertionSort (· ≤ ·) rolls).take
          ((List.insertionSort (· ≤ ·) rolls).length - n),
        (List.insertionSort (· ≤ ·) rolls).drop
          ((List.insertionSort (· ≤ ·) rolls).length - n)) := by
  unfold Roll.applyRollModifier
  rw [if_neg (by simp; omega)]

theorem applyRollModifier_keepHighest_eq (rolls : List Int) (n : Nat)
    (h1 : 0 < n) (h2 : n < rolls.length) :
    Roll.applyRollModifier rolls .ModKeepHighest n =
      ((List.insertionSort (· ≤ ·) rolls).drop
          ((List.insertionSort (· ≤ ·) rolls).length - n),
        (List.insertionSort (· ≤ ·) rolls).take
          ((List.insertionSort (· ≤ ·) rolls).length - n)) := by
  unfold Roll.applyRollModifier
  rw [if_neg (by simp; omega)]

theorem applyRollModifier_keepLowest_eq (rolls : List Int) (n : Nat)
    (h1 : 0 < n) (h2 : n < rolls.length) :
    Roll.applyRollModifier rolls .ModKeepLowest n =
      ((List.insertionSort (· ≤ ·) rolls).take n,
        (List.insertionSort (· ≤ ·) rolls).drop n) := by
  unfold Roll.applyRollModifier
  rw [if_neg (by simp; omega)]

theorem drop_append_take_perm (s : List Int) (n : Nat) :
    (s.drop n ++ s.take n).Perm s := by
  have h : (s.drop n ++ s.take n).Perm (s.take n ++ s.drop n) :=
    List.perm_append_comm
  rw [List.take_append_drop] at h
  exact h

/-- C1: with an active rule (`0 < n < len rolls`), `applyRollModifier`
selects by rank over the ascending sort of the rolls: `dropLowest n` keeps
the `len - n` highest values and drops the `n` lowest (every dropped value
is ≤ every kept value); `dropHighest n` keeps the `len - n` lowest and
drops the `n` highest; `keepHighest n` keeps the `n` highest; `keepLowest n`
keeps the `n` lowest; kept and dropped together are a permutation of the
rolls; and `applyRollModifier [3,5,2,6] dropLowest 1 = ([3,5,6], [2])`. -/
theorem C1_applyRollModifier_rank_selection (rolls : List Int) (n : Nat)
    (h1 : 0 < n) (h2 : n < rolls.length) :
    ((Roll.applyRollModifier rolls .ModDropLowest n).1.length = rolls.length - n ∧
      (Roll.applyRollModifier rolls .ModDropLowest n).2.length = n ∧
      ((Roll.applyRollModifier rolls .ModDropLowest n).1 ++
        (Roll.applyRollModifier rolls .ModDropLowest n).2).Perm rolls ∧
      ∀ x ∈ (Roll.applyRollModifier rolls .ModDropLowest n).2,
        ∀ y ∈ (Roll.applyRollModifier rolls .ModDropLowest n).1, x ≤ y) ∧
    ((Roll.applyRollModifier rolls .ModDropHighest n).1.length = rolls.length - n ∧
      (Roll.applyRollModifier rolls .ModDropHighest n).2.length = n ∧
      ((Roll.applyRollModifier rolls .ModDropHighest n).1 ++
        (Roll.applyRollModifier rolls .ModDropHighest n).2).Perm rolls ∧
      ∀ x ∈ (Roll.applyRollModifier rolls .ModDropHighest n).1,
        ∀ y ∈ (Roll.applyRollModifier rolls .ModDropHighest n).2, x ≤ y) ∧
    ((Roll.applyRollModifier rolls .ModKeepHighest n).1.length = n ∧
      (Roll.applyRollModifier rolls .ModKeepHighest n).2.length = rolls.length - n ∧
      ((Roll.applyRollModifier rolls .ModKeepHighest n).1 ++
        (Roll.applyRollModifier rolls .ModKeepHighest n).2).Perm rolls ∧
      ∀ x ∈ (Roll.applyRollModifier rolls .ModKeepHighest n).2,
        ∀ y ∈ (Roll.applyRollModifier rolls .ModKeepHighest n).1, x ≤ y) ∧
    ((Roll.applyRollModifier rolls .ModKeepLowest n).1.length = n ∧
      (Roll.applyRollModifier rolls .ModKeepLowest n).2.length = rolls.length - n ∧
      ((Roll.applyRollModifier rolls .ModKeepLowest n).1 ++
        (Roll.applyRollModifier rolls .ModKeepLowest n).2).Perm rolls ∧
      ∀ x ∈ (Roll.applyRollModifier rolls .ModKeepLowest n).1,
        ∀ y ∈ (Roll.applyRollModifier rolls .ModKeepLowest n).2, x ≤ y) ∧
    Roll.applyRollModifier [3, 5, 2, 6] .ModDropLowest 1 = ([3, 5, 6], [2]) := by
  have hs : List.Sorted (· ≤ ·) (List.insertionSort (· ≤ ·) rolls) :=
    List.sorted_insertionSort _ rolls
  have hp := insertionSort_perm_int rolls
  have hlen := insertionSort_length_int rolls
  have hperm : ∀ m : Nat,
      ((List.insertionSort (· ≤ ·) rolls).drop m ++
        (List.insertionSort (· ≤ ·) rolls).take m).Perm rolls :=
    fun m => (drop_append_take_perm _ m).trans hp
  have hperm' : ∀ m : Nat,
      ((List.insertionSort (· ≤ ·) rolls).take m ++
        (List.insertionSort (· ≤ ·) rolls).drop m).Perm rolls := by
    intro m
    rw [List.take_append_drop]
    exact hp
  have hord := sorted_take_le_drop hs
  refine ⟨?_, ?_, ?_, ?_, by decide⟩
  · rw [applyRollModifier_dropLowest_eq rolls n h1 h2]
    refine ⟨by simp [hlen] <;> omega, by simp [hlen] <;> omega, hperm n, ?_⟩
    exact fun x hx y hy => hord n x hx y hy
  · rw [applyRollModifier_dropHighest_eq rolls n h1 h2]
    refine ⟨by simp [hlen] <;> omega, by simp [hlen] <;> omega, ?_, ?_⟩
    · exact hperm' _
    · exact fun x hx y hy => hord _ x hx y hy
  · rw [applyRollModifier_keepHighest_eq rolls n h1 h2]
    refine ⟨by simp [hlen] <;> omega, by simp [hlen] <;> omega, hperm _, ?_⟩
    exact fun x hx y hy => hord _ x hx y hy
  · rw [applyRollModifier_keepLowest_eq rolls n h1 h2]
    refine ⟨by simp [hlen] <;> omega, by simp [hlen] <;> omega, hperm' _, ?_⟩
    exact fun x hx y hy => hord _ x hx y hy

/-- C1 witness: the theorem applied at `rolls = [3,5,2,6]`, `n = 1`. -/
theorem C1_applyRollModifier_rank_selection_witness :
    Roll.applyRollModifier [3, 5, 2, 6] .ModDropLowest 1 = ([3, 5, 6], [2]) :=
  (C1_applyRollModifier_rank_selection [3, 5, 2, 6] 1 (by decide)
    (by decide)).2.2.2.2

/-- C2: when the modifier is `none`, or the count is 0, or the count is at
least `len rolls`, `applyRollModifier` returns all rolls in generation
order with an empty dropped list; in every other case the kept and dropped
lists together are a permutation (multiset union) of the rolls. -/
theorem C2_applyRollModifier_passthrough_and_union (rolls : List Int)
    (mod : Roll.Modifier) (count : Nat) :
    ((mod = .ModNone ∨ count = 0 ∨ count ≥ rolls.length) →
      Roll.applyRollModifier rolls mod count = (rolls, [])) ∧
    (¬(mod = .ModNone ∨ count = 0 ∨ count ≥ rolls.length) →
      ((Roll.applyRollModifier rolls mod count).1 ++
        (Roll.applyRollModifier rolls mod count).2).Perm rolls) := by
  constructor
  · intro h
    unfold Roll.applyRollModifier
    rw [if_pos h]
  · intro h
    push_neg at h
    obtain ⟨hmod, hcount, hlt⟩ := h
    have h1 : 0 < count := Nat.pos_of_ne_zero hcount
    have h2 : count < rolls.length := Nat.lt_of_not_le (by omega)
    have hp := insertionSort_perm_int rolls
    have hperm : ∀ m : Nat,
        ((List.insertionSort (· ≤ ·) rolls).drop m ++
          (List.insertionSort (· ≤ ·) rolls).take m).Perm rolls :=
      fun m => (drop_append_take_perm _ m).trans hp
    have hperm' : ∀ m : Nat,
        ((List.insertionSort (· ≤ ·) rolls).take m ++
          (List.insertionSort (· ≤ ·) rolls).drop m).Perm rolls := by
      intro m
      rw [List.take_append_drop]
      exact hp
    cases mod with
    | ModNone => exact absurd rfl hmod
    | ModAdvantage =>
        have he : Roll.applyRollModifier rolls .ModAdvantage count = (rolls, []) := by
          unfold Roll.applyRollModifier
          rw [if_neg (by simp <;> omega)]
        rw [he]
        simp
    | ModDisadvantage =>
        have he : Roll.applyRollModifier rolls .ModDisadvantage count = (rolls, []) := by
          unfold Roll.applyRollModifier
          rw [if_neg (by simp <;> omega)]
        rw [he]
        simp
    | ModDropLowest =>
        rw [applyRollModifier_dropLowest_eq rolls count h1 h2]
        exact hperm count
    | ModDropHighest =>
        rw [applyRollModifier_dropHighest_eq rolls count h1 h2]
        exact hperm' _
    | ModKeepHighest =>
        rw [applyRollModifier_keepHighest_eq rolls count h1 h2]
        exact hperm _
    | ModKeepLowest =>
        rw [applyRollModifier_keepLowest_eq rolls count h1 h2]
        exact hperm' _

/-- C2 witness: the passthrough branch at `mod = none` and the union
branch at `rolls = [3,5]`, `mod = dropLowest`, `count = 1`. -/
theorem C2_applyRollModifier_passthrough_and_union_witness :
    Roll.applyRollModifier [4, 7] .ModNone 1 = ([4, 7], []) ∧
    ((Roll.applyRollModifier [3, 5] .ModDropLowest 1).1 ++
      (Roll.applyRollModifier [3, 5] .ModDropLowest 1).2).Perm [3, 5] :=
  ⟨(C2_applyRollModifier_passthrough_and_union [4, 7] .ModNone 1).1
      (by simp),
    (C2_applyRollModifier_passthrough_and_union [3, 5] .ModDropLowest 1).2
      (by simp)⟩

/-- C3: under the documented preconditions (`numDice ≥ 1`, `sides ≥ 1`,
`0 ≤ dropKeep ≤ numDice`), `Roll` succeeds, consumes exactly `numDice`
draws, and its result satisfies `sum(kept) + modifier = total`, for every
roll modifier and flat modifier. -/
theorem C3_roll_total_invariant (d : Roll.Dice) (g : Nat → Nat) (pos : Nat)
    (h1 : 1 ≤ d.NumDice) (h2 : 1 ≤ d.Sides)
    (h3 : d.DropKeep ≤ d.NumDice.toNat) :
    ∃ r : Roll.Result, Roll.Roll d g pos = (some r, pos + d.NumDice.toNat) ∧
      r.Kept.sum + r.Modifier = r.Total := by
  unfold Roll.Roll
  rw [if_neg (by omega), if_neg (by omega)]
  exact ⟨_, rfl, rfl⟩

/-- C3 witness: a concrete 4d6 drop-lowest-1 roll with flat modifier 2 on
the all-zeros stream. -/
theorem C3_roll_total_invariant_witness :
    ∃ r : Roll.Result,
      Roll.Roll ({ NumDice := 4, Sides := 6, Modifier := 2,
                   RollMod := .ModDropLowest, DropKeep := 1 } : Roll.Dice)
        (fun _ => 0) 0 = (some r, 4) ∧
      r.Kept.sum + r.Modifier = r.Total :=
  C3_roll_total_invariant
    ({ NumDice := 4, Sides := 6, Modifier := 2,
       RollMod := .ModDropLowest, DropKeep := 1 } : Roll.Dice) (fun _ => 0) 0
    (by decide) (by decide) (by decide)

theorem applyRollModifier_pair_keepHighest (a b : Int) :
    Roll.applyRollModifier [a, b] .ModKeepHighest 1 = ([max a b], [min a b]) := by
  unfold Roll.applyRollModifier
  rw [if_neg (by simp)]
  by_cases hab : a ≤ b
  · simp [List.insertionSort, List.orderedInsert, hab, max_eq_right hab,
      min_eq_left hab]
  · have hba : b ≤ a := le_of_not_le hab
    simp [List.insertionSort, List.orderedInsert, hab, max_eq_left hba,
      min_eq_right hba]

theorem applyRollModifier_pair_keepLowest (a b : Int) :
    Roll.applyRollModifier [a, b] .ModKeepLowest 1 = ([min a b], [max a b]) := by
  unfold Roll.applyRollModifier
  rw [if_neg (by simp)]
  by_cases hab : a ≤ b
  · simp [List.insertionSort, List.orderedInsert, hab, max_eq_right hab,
      min_eq_left hab]
  · have hba : b ≤ a := le_of_not_le hab
    simp [List.insertionSort, List.orderedInsert, hab, max_eq_left hba,
      min_eq_right hba]

theorem roll_two_dice_rolls_eq (g : Nat → Nat) (pos : Nat) (s : Int) :
    (List.range (Int.toNat 2)).map (fun i => Roll.rollDie g (pos + i) s) =
      [Roll.rollDie g pos s, Roll.rollDie g (pos + 1) s] := by
  have : Int.toNat 2 = 2 := rfl
  rw [this]
  simp [List.range_succ]

/-- C7: `RollAdvantage m` builds the 2d20 keep-highest-1 dice value
directly (no parser) and for every random stream yields exactly 2 rolls,
1 kept die equal to the maximum of the two draws, 1 dropped die equal to
the minimum, and total = kept + m; `RollDisadvantage m` is symmetric with
the minimum kept. -/
theorem C7_advantage_disadvantage (m : Int) (g : Nat → Nat) (pos : Nat) :
    (∃ r : Roll.Result, Roll.RollAdvantage m g pos = (some r, pos + 2) ∧
      r.Rolls = [Roll.rollDie g pos 20, Roll.rollDie g (pos + 1) 20] ∧
      r.Kept = [max (Roll.rollDie g pos 20) (Roll.rollDie g (pos + 1) 20)] ∧
      r.Dropped = [min (Roll.rollDie g pos 20) (Roll.rollDie g (pos + 1) 20)] ∧
      r.Total = max (Roll.rollDie g pos 20) (Roll.rollDie g (pos + 1) 20) + m ∧
      r.Rolls.length = 2 ∧ r.Kept.length = 1 ∧ r.Dropped.length = 1 ∧
      r.Dropped.getD 0 0 ≤ r.Kept.getD 0 0) ∧
    (∃ r : Roll.Result, Roll.RollDisadvantage m g pos = (some r, pos + 2) ∧
      r.Rolls = [Roll.rollDie g pos 20, Roll.rollDie g (pos + 1) 20] ∧
      r.Kept = [min (Roll.rollDie g pos 20) (Roll.rollDie g (pos + 1) 20)] ∧
      r.Dropped = [max (Roll.rollDie g pos 20) (Roll.rollDie g (pos + 1) 20)] ∧
      r.Total = min (Roll.rollDie g pos 20) (Roll.rollDie g (pos + 1) 20) + m ∧
      r.Rolls.length = 2 ∧ r.Kept.length = 1 ∧ r.Dropped.length = 1 ∧
      r.Kept.getD 0 0 ≤ r.Dropped.getD 0 0) := by
  constructor
  · refine ⟨{ Expression := [],
              Rolls := [Roll.rollDie g pos 20, Roll.rollDie g (pos + 1) 20],
              Dropped := [min (Roll.rollDie g pos 20)
                (Roll.rollDie g (pos + 1) 20)],
              Kept := [max (Roll.rollDie g pos 20)
                (Roll.rollDie g (pos + 1) 20)],
              Modifier := m,
              Total := max (Roll.rollDie g pos 20)
                (Roll.rollDie g (pos + 1) 20) + m,
              Sides := 20, NumDice := 2 },
      ?_, rfl, rfl, rfl, rfl, rfl, rfl, rfl, by simp [min_le_max]⟩
    unfold Roll.RollAdvantage Roll.Roll
    rw [if_neg (by simp), if_neg (by simp)]
    simp only [roll_two_dice_rolls_eq, applyRollModifier_pair_keepHighest]
    simp
  · refine ⟨{ Expression := [],
              Rolls := [Roll.rollDie g pos 20, Roll.rollDie g (pos + 1) 20],
              Dropped := [max (Roll.rollDie g pos 20)
                (Roll.rollDie g (pos + 1) 20)],
              Kept := [min (Roll.rollDie g pos 20)
                (Roll.rollDie g (pos + 1) 20)],
              Modifier := m,
              Total := min (Roll.rollDie g pos 20)
                (Roll.rollDie g (pos + 1) 20) + m,
              Sides := 20, NumDice := 2 },
      ?_, rfl, rfl, rfl, rfl, rfl, rfl, rfl, by simp [min_le_max]⟩
    unfold Roll.RollDisadvantage Roll.Roll
    rw [if_neg (by simp), if_neg (by simp)]
    simp only [roll_two_dice_rolls_eq, applyRollModifier_pair_keepLowest]
    simp

/-- C9 counterexample: the claim activates for every modifier other than
`none`, but `ModAdvantage` (not `none`, with `0 < count < len rolls`)
falls through to the default arm of `applyRollModifier`, which returns the
rolls in generation order — here `[5, 3]`, not ascending. -/
theorem C9_sorted_outputs_counterexample :
    Roll.Modifier.ModAdvantage ≠ Roll.Modifier.ModNone ∧
    (0 : Nat) < 1 ∧ 1 < ([5, 3] : List Int).length ∧
    Roll.applyRollModifier [5, 3] .ModAdvantage 1 = ([5, 3], []) ∧
    ¬ List.Sorted (· ≤ ·) (Roll.applyRollModifier [5, 3] .ModAdvantage 1).1 := by
  refine ⟨by decide, by decide, by decide, by decide, ?_⟩
  intro h
  rw [(by decide : Roll.applyRollModifier [5, 3] .ModAdvantage 1 = ([5, 3], []))] at h
  have h53 := (List.pairwise_cons.mp h).1 3 (by simp)
  omega

/-- C9 amended: whenever the modifier is one of the four drop/keep rules
(`dropLowest`, `dropHighest`, `keepHighest`, `keepLowest`) and
`0 < count < len rolls`, `applyRollModifier` returns both kept and dropped
in ascending sorted order; and `Roll` always stores the rolls in their
original generation order, untouched by the sorting of the copy. -/
theorem C9_sorted_outputs_amended (rolls : List Int) (mod : Roll.Modifier)
    (count : Nat)
    (hmod : mod = .ModDropLowest ∨ mod = .ModDropHighest ∨
      mod = .ModKeepHighest ∨ mod = .ModKeepLowest)
    (h1 : 0 < count) (h2 : count < rolls.length) :
    List.Sorted (· ≤ ·) (Roll.applyRollModifier rolls mod count).1 ∧
    List.Sorted (· ≤ ·) (Roll.applyRollModifier rolls mod count).2 ∧
    (∀ (d : Roll.Dice) (g : Nat → Nat) (pos p : Nat) (r : Roll.Result),
      Roll.Roll d g pos = (some r, p) →
      r.Rolls = (List.range d.NumDice.toNat).map
        fun i => Roll.rollDie g (pos + i) d.Sides) := by
  have hs : List.Sorted (· ≤ ·) (List.insertionSort (· ≤ ·) rolls) :=
    List.sorted_insertionSort _ rolls
  have htake : ∀ m : Nat,
      List.Sorted (· ≤ ·) ((List.insertionSort (· ≤ ·) rolls).take m) :=
    fun m => hs.sublist (List.take_sublist m _)
  have hdrop : ∀ m : Nat,
      List.Sorted (· ≤ ·) ((List.insertionSort (· ≤ ·) rolls).drop m) :=
    fun m => hs.sublist (List.drop_sublist m _)
  have hrollsEq : ∀ (d : Roll.Dice) (g : Nat → Nat) (pos p : Nat)
      (r : Roll.Result), Roll.Roll d g pos = (some r, p) →
      r.Rolls = (List.range d.NumDice.toNat).map
        fun i => Roll.rollDie g (pos + i) d.Sides := by
    intro d g pos p r h
    unfold Roll.Roll at h
    by_cases hn : d.NumDice < 1
    · rw [if_pos hn] at h
      simp at h
    · rw [if_neg hn] at h
      by_cases hsd : d.Sides < 1
      · rw [if_pos hsd] at h
        simp at h
      · rw [if_neg hsd] at h
        simp at h
        rw [← h.1]
  rcases hmod with rfl | rfl | rfl | rfl
  · rw [applyRollModifier_dropLowest_eq rolls count h1 h2]
    exact ⟨hdrop count, htake count, hrollsEq⟩
  · rw [applyRollModifier_dropHighest_eq rolls count h1 h2]
    exact ⟨htake _, hdrop _, hrollsEq⟩
  · rw [applyRollModifier_keepHighest_eq rolls count h1 h2]
    exact ⟨hdrop _, htake _, hrollsEq⟩
  · rw [applyRollModifier_keepLowest_eq rolls count h1 h2]
    exact ⟨htake _, hdrop _, hrollsEq⟩

/-- C9 witness: the amended theorem applied at `rolls = [5, 3]`,
`mod = dropLowest`, `count = 1`. -/
theorem C9_sorted_outputs_amended_witness :
    List.Sorted (· ≤ ·) (Roll.applyRollModifier [5, 3] .ModDropLowest 1).1 ∧
    List.Sorted (· ≤ ·) (Roll.applyRollModifier [5, 3] .ModDropLowest 1).2 :=
  ⟨(C9_sorted_outputs_amended [5, 3] .ModDropLowest 1 (Or.inl rfl)
      (by decide) (by decide)).1,
    (C9_sorted_outputs_amended [5, 3] .ModDropLowest 1 (Or.inl rfl)
      (by decide) (by decide)).2.1⟩

/-- C10: the regex grammar `Parse` does no range validation — `"0d6"`
parses to `NumDice = 0` and `"2d0"` parses to `Sides = 0` — and the range
errors are raised by `Roll` before any draw: whenever `NumDice < 1` or
`Sides < 1`, `Roll` returns the error with the random stream position
unchanged. -/
theorem C10_parse_no_range_validation :
    (∃ d : Roll.Dice, Roll.Parse ("0d6".toList) = some d ∧
      d.NumDice = 0 ∧ d.Sides = 6) ∧
    (∃ d : Roll.Dice, Roll.Parse ("2d0".toList) = some d ∧
      d.NumDice = 2 ∧ d.Sides = 0) ∧
    (∀ (d : Roll.Dice) (g : Nat → Nat) (pos : Nat),
      d.NumDice < 1 ∨ d.Sides < 1 → Roll.Roll d g pos = (none, pos)) := by
  refine ⟨⟨{ NumDice := 0, Sides := 6, Modifier := 0, RollMod := .ModNone,
             DropKeep := 0 }, by decide, rfl, rfl⟩,
    ⟨{ NumDice := 2, Sides := 0, Modifier := 0, RollMod := .ModNone,
       DropKeep := 0 }, by decide, rfl, rfl⟩, ?_⟩
  intro d g pos h
  unfold Roll.Roll
  by_cases hn : d.NumDice < 1
  · rw [if_pos hn]
  · rw [if_neg hn, if_pos (by omega)]

/-- C10 witness: `Roll` on the parsed `"0d6"` dice value fails with the
stream position unchanged on a concrete stream. -/
theorem C10_parse_no_range_validation_witness :
    Roll.Roll ({ NumDice := 0, Sides := 6, Modifier := 0, RollMod := .ModNone,
                 DropKeep := 0 } : Roll.Dice) (fun _ => 0) 5 = (none, 5) :=
  C10_parse_no_range_validation.2.2 _ (fun _ => 0) 5 (Or.inl (by decide))

theorem findSign_lt_length {l : List Char} {i : Nat}
    (h : Rolls.findSign l = some i) : i < l.length := by
  induction l generalizing i with
  | nil => simp [Rolls.findSign] at h
  | cons x xs ih =>
      by_cases hx : Rolls.isSign x
      · simp [Rolls.findSign, hx] at h
        simp [← h]
      · simp [Rolls.findSign, hx] at h
        obtain ⟨j, hj, rfl⟩ := h
        have := ih hj
        simp
        omega

theorem getNextDieStr_rem_lt {s : List Char}
    (h : (Rolls.getNextDieStr s).2 ≠ []) :
    (Rolls.getNextDieStr s).2.length < s.length := by
  rcases s with _ | ⟨c, rest⟩
  · simp [Rolls.getNextDieStr] at h
  · by_cases hc : Rolls.isSign c
    · rcases hfs : Rolls.findSign rest with _ | i
      · simp [Rolls.getNextDieStr, hc, hfs] at h
      · have hi := findSign_lt_length hfs
        simp [Rolls.getNextDieStr, hc, hfs]
        omega
    · rcases hfs : Rolls.findSign (c :: rest) with _ | i
      · simp [Rolls.getNextDieStr, hc, hfs] at h
      · have hfs' := hfs
        simp [Rolls.findSign, hc] at hfs'
        obtain ⟨j, hj, hji⟩ := hfs'
        have hi := findSign_lt_length hj
        simp [Rolls.getNextDieStr, hc, hfs]
        omega

theorem split_unfold (s : List Char) :
    Rolls.split s =
      if (Rolls.getNextDieStr s).2 = [] then [(Rolls.getNextDieStr s).1]
      else (Rolls.getNextDieStr s).1 ::
        Rolls.split (Rolls.getNextDieStr s).2 := by
  rw [Rolls.split.eq_def]
  by_cases h : (Rolls.getNextDieStr s).2 = []
  · rw [dif_pos h, if_pos h]
  · rw [dif_neg h, if_neg h]

theorem getNextDieStr_append (s : List Char) :
    (Rolls.getNextDieStr s).1 ++ (Rolls.getNextDieStr s).2 = s := by
  rcases s with _ | ⟨c, rest⟩
  · rfl
  · by_cases hc : Rolls.isSign c
    · rcases hfs : Rolls.findSign rest with _ | i
      · simp [Rolls.getNextDieStr, hc, hfs]
      · simp only [Rolls.getNextDieStr, hc, hfs, if_pos]
        exact List.take_append_drop _ _
    · rcases hfs : Rolls.findSign (c :: rest) with _ | i
      · simp [Rolls.getNextDieStr, hc, hfs]
      · simp only [Rolls.getNextDieStr, hc, hfs, if_neg]
        exact List.take_append_drop _ _

theorem findSign_none_no_sign {l : List Char} (h : Rolls.findSign l = none) :
    ∀ c ∈ l, ¬ Rolls.isSign c := by
  induction l with
  | nil => simp
  | cons x xs ih =>
      by_cases hx : Rolls.isSign x
      · simp [Rolls.findSign, hx] at h
      · simp only [Rolls.findSign, hx] at h
        simp at h
        intro c hc
        rcases List.mem_cons.mp hc with rfl | hc
        · exact hx
        · exact ih h c hc

theorem findSign_take_no_sign {l : List Char} {i : Nat}
    (h : Rolls.findSign l = some i) : ∀ c ∈ l.take i, ¬ Rolls.isSign c := by
  induction l generalizing i with
  | nil => simp
  | cons x xs ih =>
      by_cases hx : Rolls.isSign x
      · simp [Rolls.findSign, hx] at h
        simp [← h]
      · simp [Rolls.findSign, hx] at h
        obtain ⟨j, hj, rfl⟩ := h
        intro c hc
        rw [List.take_succ_cons] at hc
        rcases List.mem_cons.mp hc with rfl | hc
        · exact hx
        · exact ih hj c hc

theorem findSign_drop_sign {l : List Char} {i : Nat}
    (h : Rolls.findSign l = some i) :
    ∃ c t, l.drop i = c :: t ∧ Rolls.isSign c := by
  induction l generalizing i with
  | nil => simp [Rolls.findSign] at h
  | cons x xs ih =>
      by_cases hx : Rolls.isSign x
      · simp [Rolls.findSign, hx] at h
        exact ⟨x, xs, by simp [← h], hx⟩
      · simp [Rolls.findSign, hx] at h
        obtain ⟨j, hj, rfl⟩ := h
        simpa using ih hj

theorem getNextDieStr_fst_tail_no_sign (s : List Char) :
    ∀ c ∈ (Rolls.getNextDieStr s).1.tail, ¬ Rolls.isSign c := by
  rcases s with _ | ⟨c, rest⟩
  · simp [Rolls.getNextDieStr]
  · by_cases hc : Rolls.isSign c
    · rcases hfs : Rolls.findSign rest with _ | i
      · simp only [Rolls.getNextDieStr, hc, hfs, if_pos, List.tail_cons]
        exact findSign_none_no_sign hfs
      · simp only [Rolls.getNextDieStr, hc, hfs, if_pos,
          List.take_succ_cons, List.tail_cons]
        exact findSign_take_no_sign hfs
    · rcases hfs : Rolls.findSign (c :: rest) with _ | i
      · simp only [Rolls.getNextDieStr, hc, hfs, if_neg, List.tail_cons]
        intro x hx
        exact findSign_none_no_sign hfs x (List.mem_cons_of_mem c hx)
      · have hfs' := hfs
        simp [Rolls.findSign, hc] at hfs'
        obtain ⟨j, hj, hji⟩ := hfs'
        subst hji
        simp only [Rolls.getNextDieStr, hc, hfs, if_neg,
          List.take_succ_cons, List.tail_cons]
        exact findSign_take_no_sign hj

theorem getNextDieStr_snd_sign {s : List Char} {c : Char} {t : List Char}
    (h : (Rolls.getNextDieStr s).2 = c :: t) : Rolls.isSign c := by
  rcases s with _ | ⟨x, rest⟩
  · simp [Rolls.getNextDieStr] at h
  · by_cases hx : Rolls.isSign x
    · rcases hfs : Rolls.findSign rest with _ | i
      · simp [Rolls.getNextDieStr, hx, hfs] at h
      · simp only [Rolls.getNextDieStr, hx, hfs, if_pos,
          List.drop_succ_cons] at h
        obtain ⟨c', t', hdrop, hsign⟩ := findSign_drop_sign hfs
        rw [hdrop] at h
        cases h
        exact hsign
    · rcases hfs : Rolls.findSign (x :: rest) with _ | i
      · simp [Rolls.getNextDieStr, hx, hfs] at h
      · have hfs' := hfs
        simp [Rolls.findSign, hx] at hfs'
        obtain ⟨j, hj, hji⟩ := hfs'
        subst hji
        simp only [Rolls.getNextDieStr, hx, hfs, if_neg,
          List.drop_succ_cons] at h
        obtain ⟨c', t', hdrop, hsign⟩ := findSign_drop_sign hj
        rw [hdrop] at h
        cases h
        exact hsign

theorem getNextDieStr_fst_head {c : Char} {rest : List Char} :
    ∃ t, (Rolls.getNextDieStr (c :: rest)).1 = c :: t := by
  by_cases hc : Rolls.isSign c
  · rcases hfs : Rolls.findSign rest with _ | i
    · simp [Rolls.getNextDieStr, hc, hfs]
    · simp only [Rolls.getNextDieStr, hc, hfs, if_pos, List.take_succ_cons]
      exact ⟨_, rfl⟩
  · rcases hfs : Rolls.findSign (c :: rest) with _ | i
    · simp [Rolls.getNextDieStr, hc, hfs]
    · have hfs' := hfs
      simp [Rolls.findSign, hc] at hfs'
      obtain ⟨j, hj, hji⟩ := hfs'
      subst hji
      simp only [Rolls.getNextDieStr, hc, hfs, if_neg, List.take_succ_cons]
      exact ⟨_, rfl⟩

theorem split_flatten_aux :
    ∀ (n : Nat) (s : List Char), s.length ≤ n →
      (Rolls.split s).flatten = s := by
  intro n
  induction n with
  | zero =>
      intro s hs
      have hnil : s = [] := List.length_eq_zero.mp (Nat.le_zero.mp hs)
      subst hnil
      rw [split_unfold]
      simp [Rolls.getNextDieStr]
  | succ n ih =>
      intro s hs
      rw [split_unfold]
      by_cases h : (Rolls.getNextDieStr s).2 = []
      · rw [if_pos h]
        have happ := getNextDieStr_append s
        rw [h] at happ
        simpa using happ
      · rw [if_neg h]
        have hlt := getNextDieStr_rem_lt h
        rw [List.flatten_cons, ih _ (by omega)]
        exact getNextDieStr_append s

theorem split_all_head_sign :
    ∀ (n : Nat) (s : List Char), s.length ≤ n →
      ∀ (c : Char) (rest : List Char), s = c :: rest → Rolls.isSign c →
        ∀ p ∈ Rolls.split s, ∃ x t, p = x :: t ∧ Rolls.isSign x := by
  intro n
  induction n with
  | zero =>
      intro s hs c rest hrep hc
      subst hrep
      simp at hs
  | succ n ih =>
      intro s hs c rest hrep hc p hp
      rw [split_unfold] at hp
      by_cases h : (Rolls.getNextDieStr s).2 = []
      · rw [if_pos h] at hp
        simp at hp
        subst hp
        obtain ⟨t, ht⟩ := hrep ▸ @getNextDieStr_fst_head c rest
        exact ⟨c, t, ht, hc⟩
      · rw [if_neg h] at hp
        rcases List.mem_cons.mp hp with rfl | hp
        · obtain ⟨t, ht⟩ := hrep ▸ @getNextDieStr_fst_head c rest
          exact ⟨c, t, ht, hc⟩
        · rcases hrem : (Rolls.getNextDieStr s).2 with _ | ⟨x, t⟩
          · exact absurd hrem h
          · have hlt := getNextDieStr_rem_lt h
            exact ih _ (by omega) x t hrem (getNextDieStr_snd_sign hrem) p
              (hrem ▸ hp)

theorem split_tail_no_sign :
    ∀ (n : Nat) (s : List Char), s.length ≤ n →
      ∀ p ∈ Rolls.split s, ∀ c ∈ p.tail, ¬ Rolls.isSign c := by
  intro n
  induction n with
  | zero =>
      intro s hs p hp
      have hnil : s = [] := List.length_eq_zero.mp (Nat.le_zero.mp hs)
      subst hnil
      rw [split_unfold] at hp
      simp [Rolls.getNextDieStr] at hp
      subst hp
      simp
  | succ n ih =>
      intro s hs p hp
      rw [split_unfold] at hp
      by_cases h : (Rolls.getNextDieStr s).2 = []
      · rw [if_pos h] at hp
        simp at hp
        subst hp
        exact getNextDieStr_fst_tail_no_sign s
      · rw [if_neg h] at hp
        rcases List.mem_cons.mp hp with rfl | hp
        · exact getNextDieStr_fst_tail_no_sign s
        · have hlt := getNextDieStr_rem_lt h
          exact ih _ (by omega) p hp

/-- C4: `split` cuts a term exactly at each `'+'` or `'-'` that is not the
first character of the remaining string: the pieces concatenate back to
the original input (round-trip), every piece after the first begins with a
sign (each boundary is a sign), and no piece carries a sign after its
first character (no sign inside a term is skipped). -/
theorem C4_split_boundaries_roundtrip (s : List Char) :
    (Rolls.split s).flatten = s ∧
    (∀ p ∈ (Rolls.split s).tail, ∃ c t, p = c :: t ∧ (c = '+' ∨ c = '-')) ∧
    (∀ p ∈ Rolls.split s, ∀ c ∈ p.tail, c ≠ '+' ∧ c ≠ '-') := by
  refine ⟨split_flatten_aux s.length s le_rfl, ?_, ?_⟩
  · intro p hp
    rw [split_unfold] at hp
    by_cases h : (Rolls.getNextDieStr s).2 = []
    · rw [if_pos h] at hp
      simp at hp
    · rw [if_neg h] at hp
      rw [List.tail_cons] at hp
      rcases hrem : (Rolls.getNextDieStr s).2 with _ | ⟨x, t⟩
      · exact absurd hrem h
      · obtain ⟨c, t', hct, hsign⟩ :=
          split_all_head_sign (Rolls.getNextDieStr s).2.length _ le_rfl x t
            hrem (getNextDieStr_snd_sign hrem) p (hrem ▸ hp)
        refine ⟨c, t', hct, ?_⟩
        simpa [Rolls.isSign] using hsign
  · intro p hp c hc
    have := split_tail_no_sign s.length s le_rfl p hp c hc
    simpa [Rolls.isSign] using this

/-- C4 witness: the theorem applied at the concrete input `"3d6+2d8-5"`,
whose pieces are `"3d6"`, `"+2d8"`, `"-5"`. -/
theorem C4_split_boundaries_roundtrip_witness :
    ((Rolls.split ("3d6+2d8-5".toList)).flatten = ("3d6+2d8-5".toList)) ∧
    (∃ c t, ("+2d8".toList) = c :: t ∧ (c = '+' ∨ c = '-')) ∧
    (∀ c ∈ ("3d6".toList).tail, c ≠ '+' ∧ c ≠ '-') := by
  have hsplit : Rolls.split ("3d6+2d8-5".toList) =
      [("3d6".toList), ("+2d8".toList), ("-5".toList)] := by
    simp [Rolls.split, Rolls.getNextDieStr, Rolls.findSign, Rolls.isSign]
  have h := C4_split_boundaries_roundtrip ("3d6+2d8-5".toList)
  refine ⟨h.1, ?_, ?_⟩
  · exact h.2.1 ("+2d8".toList) (by rw [hsplit]; simp)
  · exact h.2.2 ("3d6".toList) (by rw [hsplit]; simp)

/-- C5: `toRollInfo` rejects zero sides (`"2d0"`), zero dice (`"0d6"`),
explicitly negative sides (`"2d-6"`), empty input (`""`) and a bare sign
(`"+"`), and parses `"1d6"` to a single add-operation dice term with
`Number = 1` and `Sides = 6`. -/
theorem C5_toRollInfo_boundaries :
    Rolls.toRollInfo ("2d0".toList) = none ∧
    Rolls.toRollInfo ("0d6".toList) = none ∧
    Rolls.toRollInfo ("2d-6".toList) = none ∧
    Rolls.toRollInfo ("".toList) = none ∧
    Rolls.toRollInfo ("+".toList) = none ∧
    Rolls.toRollInfo ("1d6".toList) =
      some { Operation := .AddOperation, Number := 1, Sides := 6, Flat := 0 } := by
  refine ⟨?_, ?_, ?_, ?_, ?_, ?_⟩ <;> decide

/-- C6: for any argument list `[cmd, marg]` whose modifier argument parses
to `(v, neg)`, the age generator draws exactly three six-sided dice in
stream order, flags stunt points exactly when at least two dice match,
reports the third die as the stunt value, flags drama exactly when the
third die shows 6, and totals the dice sum plus the signed modifier; a
missing second argument behaves as modifier `"0"`; on dice `(4,4,6)` with
modifier `"+2"` it reports stunt points with value 6, drama, and total 16. -/
theorem C6_ageGen_stunt_drama_total (a0 marg : List Char) (g : Nat → Nat)
    (pos : Nat) (v : Int) (neg : Bool)
    (hm : Rolls.parseModifier marg = some (v, neg)) :
    (∃ r : Rolls.AgeResult,
      Rolls.ageGen [a0, marg] g pos = (some r, pos + 3) ∧
      r.dice0 = Roll.rollDie g pos 6 ∧
      r.dice1 = Roll.rollDie g (pos + 1) 6 ∧
      r.dice2 = Roll.rollDie g (pos + 2) 6 ∧
      (r.stuntPoints = true ↔
        (r.dice0 = r.dice1 ∨ r.dice0 = r.dice2 ∨ r.dice1 = r.dice2)) ∧
      r.stuntValue = r.dice2 ∧
      (r.drama = true ↔ r.dice2 = 6) ∧
      r.total = r.dice0 + r.dice1 + r.dice2 + (if neg then -v else v)) ∧
    Rolls.ageGen [a0] g pos = Rolls.ageGen [a0, ['0']] g pos ∧
    Rolls.ageGen [("age".toList), ("+2".toList)]
        (fun i => [3, 3, 5].getD i 0) 0 =
      (some { dice0 := 4, dice1 := 4, dice2 := 6, stuntPoints := true,
              stuntValue := 6, drama := true, total := 16 }, 3) := by
  refine ⟨?_, rfl, by decide⟩
  have hstep : Rolls.ageGen [a0, marg] g pos =
      (some { dice0 := Roll.rollDie g pos 6,
              dice1 := Roll.rollDie g (pos + 1) 6,
              dice2 := Roll.rollDie g (pos + 2) 6,
              stuntPoints :=
                (Roll.rollDie g pos 6 == Roll.rollDie g (pos + 1) 6) ||
                (Roll.rollDie g pos 6 == Roll.rollDie g (pos + 2) 6) ||
                (Roll.rollDie g (pos + 1) 6 == Roll.rollDie g (pos + 2) 6),
              stuntValue := Roll.rollDie g (pos + 2) 6,
              drama := Roll.rollDie g (pos + 2) 6 == 6,
              total := if neg then
                  Roll.rollDie g pos 6 + Roll.rollDie g (pos + 1) 6 +
                    Roll.rollDie g (pos + 2) 6 - v
                else
                  Roll.rollDie g pos 6 + Roll.rollDie g (pos + 1) 6 +
                    Roll.rollDie g (pos + 2) 6 + v }, pos + 3) := by
    unfold Rolls.ageGen
    simp only [hm]
  refine ⟨_, hstep, rfl, rfl, rfl, ?_, rfl, ?_, ?_⟩
  · simp [or_assoc]
  · simp
  · by_cases hn : neg <;> simp [hn, sub_eq_add_neg]

/-- C6 witness: the theorem applied at arguments `["age", "+2"]`, stream
dice `(4, 4, 6)`, position 7, modifier value `(2, false)`. -/
theorem C6_ageGen_stunt_drama_total_witness :
    ∃ r : Rolls.AgeResult,
      Rolls.ageGen [("age".toList), ("+2".toList)]
          (fun i => [3, 3, 5].getD i 0) 7 = (some r, 7 + 3) ∧
      r.total = r.dice0 + r.dice1 + r.dice2 + 2 := by
  obtain ⟨r, h1, _, _, _, _, _, _, h8⟩ :=
    (C6_ageGen_stunt_drama_total ("age".toList) ("+2".toList)
      (fun i => [3, 3, 5].getD i 0) 7 2 false (by decide)).1
  exact ⟨r, h1, by simpa using h8⟩

/-- C8: parse-time validation completes before any random draw — whenever
`Parse` fails, `RollString` returns the error with the random stream
position unchanged, and whenever `parseOperators` fails, the
parse-then-evaluate pipeline returns the error with the position
unchanged (no partial roll). -/
theorem C8_parse_errors_before_draws :
    (∀ (expr : List Char) (g : Nat → Nat) (pos : Nat),
      Roll.Parse expr = none → Roll.RollString expr g pos = (none, pos)) ∧
    (∀ (args : List (List Char)) (g : Nat → Nat) (pos : Nat),
      Rolls.parseOperators args = none →
        Rolls.rollNorm args g pos = (none, pos)) := by
  constructor
  · intro expr g pos h
    unfold Roll.RollString
    rw [h]
  · intro args g pos h
    unfold Rolls.rollNorm
    rw [h]

/-- C8 witness: `RollString` on the unparseable `"x!"` and the pipeline on
`["0d6"]` (zero dice) both fail with the stream position unchanged. -/
theorem C8_parse_errors_before_draws_witness :
    Roll.RollString ("x!".toList) (fun _ => 0) 9 = (none, 9) ∧
    Rolls.rollNorm [("0d6".toList)] (fun _ => 0) 11 = (none, 11) := by
  have hpo : Rolls.parseOperators [("0d6".toList)] = none := by
    unfold Rolls.parseOperators
    have hsplit : Rolls.split (([("0d6".toList)] : List (List Char)).flatten) =
        [("0d6".toList)] := by
      simp [Rolls.split, Rolls.getNextDieStr, Rolls.findSign, Rolls.isSign]
    rw [hsplit]
    decide
  exact ⟨C8_parse_errors_before_draws.1 ("x!".toList) (fun _ => 0) 9
      (by decide),
    C8_parse_errors_before_draws.2 [("0d6".toList)] (fun _ => 0) 11 hpo⟩
